import Mathlib

/-! Verification of the numerical visualization core of the
bayesian-playground repository: the seeded linear-congruential random
stream, the Box-Muller synthetic dataset and unnormalized 2D log-posterior
of `MCMCSamplingVisualizer.tsx`, its Metropolis-Hastings sampler and
contour-grid builder, the Beta-Binomial conjugate updater, the analytical
Normal-Normal conjugate update, and the `betaPDF` density with its Lanczos
log-gamma approximation.  Real-typed definitions model the JavaScript
number arithmetic with idealized reals; the LCG state is modelled modulo
2^32 (the JS signed 32-bit representative agrees modulo 2^32 and the
double multiplications involved are exact below 2^53). -/

open Classical

namespace BayesPlay

/-- One step of the JS linear congruential generator
`s = (s * 1664525 + 1013904223) & 0xffffffff`, on the state modulo 2^32. -/
def lcg (s : ℕ) : ℕ := (s * 1664525 + 1013904223) % 4294967296

/-- The uniform output `(s >>> 0) / 4294967296` of a generator state. -/
noncomputable def lcgU (s : ℕ) : ℝ := (s : ℝ) / 4294967296

/-- The Box-Muller loop of `genData`: each iteration draws `u1, u2` from the
LCG and pushes the pair `z0, z1`; `k` counts remaining loop iterations and
`s` is the current RNG state. -/
noncomputable def bmNormals (s : ℕ) : ℕ → List ℝ
  | 0 => []
  | k + 1 =>
    let s1 := lcg s
    let s2 := lcg s1
    (Real.sqrt (-2 * Real.log (lcgU s1 + 1e-12)) * Real.cos (2 * Real.pi * lcgU s2)) ::
      (Real.sqrt (-2 * Real.log (lcgU s1 + 1e-12)) * Real.sin (2 * Real.pi * lcgU s2)) ::
        bmNormals s2 k

/-- `genData(seed, n, mu, sig)`: Box-Muller normal deviates from the seeded
LCG (the `for (i = 0; i < n; i += 2)` loop runs `⌈n/2⌉` times), truncated to
`n` by `slice(0, n)` and scaled into LogNormal draws `exp(mu + sig * z)`. -/
noncomputable def genData (seed n : ℕ) (mu sig : ℝ) : List ℝ :=
  ((bmNormals seed ((n + 1) / 2)).take n).map fun z => Real.exp (mu + sig * z)

/-- `N_OBS = 80`. -/
def N_OBS : ℕ := 80

/-- `DATA = genData(SEED_DATA, N_OBS, TRUE_MU, TRUE_SIG)` with
`SEED_DATA = 42`, `TRUE_MU = 1.1`, `TRUE_SIG = 0.6`. -/
noncomputable def DATA : List ℝ := genData 42 N_OBS 1.1 0.6

/-- `SUM_LOG_X = DATA.reduce((s, x) => s + Math.log(x), 0)`. -/
noncomputable def SUM_LOG_X : ℝ := DATA.foldl (fun s x => s + Real.log x) 0

/-- `SUM_LOG_X_SQ = DATA.reduce((s, x) => s + Math.log(x) ** 2, 0)`. -/
noncomputable def SUM_LOG_X_SQ : ℝ := DATA.foldl (fun s x => s + Real.log x ^ 2) 0

/-- `TARGET_LOG_PROB(mu, sig)` of `MCMCSamplingVisualizer.tsx`: `-Infinity`
(modelled as `⊥ : EReal`) for `sig <= 0`, otherwise the finite unnormalized
log posterior built from the cached sufficient statistics and the two prior
terms. -/
noncomputable def TARGET_LOG_PROB (mu sig : ℝ) : EReal :=
  if sig ≤ 0 then ⊥
  else
    (((-(N_OBS : ℝ) * Real.log sig
        - 1 / (2 * (sig * sig)) * (SUM_LOG_X_SQ - 2 * mu * SUM_LOG_X + (N_OBS : ℝ) * mu * mu))
      + (-0.5 * mu * mu) + (-0.5 * sig * sig) : ℝ) : EReal)

theorem bmNormals_length (k : ℕ) : ∀ s : ℕ, (bmNormals s k).length = 2 * k := by
  induction k with
  | zero => intro s; rfl
  | succ k ih =>
    intro s
    simp only [bmNormals, List.length_cons, ih]
    omega

theorem DATA_length : DATA.length = 80 := by
  simp [DATA, genData, N_OBS, bmNormals_length]

/-- Folding `fun s x => s + f x` over a list sums the mapped list. -/
theorem foldl_add_map (f : ℝ → ℝ) (l : List ℝ) :
    ∀ a : ℝ, l.foldl (fun s x => s + f x) a = a + (l.map f).sum := by
  induction l with
  | nil => intro a; simp
  | cons x l ih => intro a; simp [ih]; ring

/-- Expansion of a sum of squared deviations into sufficient statistics. -/
theorem sum_sq_dev (m : ℝ) (l : List ℝ) :
    (l.map fun a => (a - m) ^ 2).sum
      = (l.map fun a => a ^ 2).sum - 2 * m * l.sum + l.length * m ^ 2 := by
  induction l with
  | nil => simp
  | cons x l ih =>
    simp only [List.map_cons, List.sum_cons, ih, List.length_cons]
    push_cast
    ring

/-- C3: `TARGET_LOG_PROB(mu, sigma)` returns `-Infinity` (here `⊥`) for every
`sigma ≤ 0` and every `mu`; for every `sigma > 0` it returns a finite value
(neither `⊥` nor `⊤`) equal to the LogNormal log-likelihood
`-n·log σ − (1/(2σ²))·Σ (log xᵢ − μ)²` over the cached dataset — recovered
from the cached sufficient statistics `SUM_LOG_X`, `SUM_LOG_X_SQ` — plus the
standard-Normal log-prior term `−μ²/2` on `mu` and the standard-HalfNormal
log-prior term `−σ²/2` on `sigma`.  The function is total, so no exception
is raised in either case. -/
theorem target_log_prob_spec (mu sig : ℝ) :
    (sig ≤ 0 → TARGET_LOG_PROB mu sig = ⊥) ∧
    (0 < sig → TARGET_LOG_PROB mu sig ≠ ⊥ ∧ TARGET_LOG_PROB mu sig ≠ ⊤ ∧
      TARGET_LOG_PROB mu sig =
        ((-(DATA.length : ℝ) * Real.log sig
          - 1 / (2 * (sig * sig)) * ((DATA.map fun x => (Real.log x - mu) ^ 2).sum)
          - mu ^ 2 / 2 - sig ^ 2 / 2 : ℝ) : EReal)) := by
  constructor
  · intro h
    rw [TARGET_LOG_PROB, if_pos h]
  · intro h
    rw [TARGET_LOG_PROB, if_neg (not_le.mpr h)]
    refine ⟨EReal.coe_ne_bot _, EReal.coe_ne_top _, ?_⟩
    rw [EReal.coe_eq_coe_iff]
    have hcomp : (DATA.map fun x => (Real.log x - mu) ^ 2)
        = ((DATA.map Real.log).map fun a => (a - mu) ^ 2) := by
      rw [List.map_map]; rfl
    rw [hcomp, sum_sq_dev]
    have hS : SUM_LOG_X = (DATA.map Real.log).sum := by
      rw [SUM_LOG_X, foldl_add_map Real.log DATA, zero_add]
    have hSQ : SUM_LOG_X_SQ = (DATA.map fun x => Real.log x ^ 2).sum := by
      rw [SUM_LOG_X_SQ, foldl_add_map (fun x => Real.log x ^ 2) DATA, zero_add]
    have hmap : (DATA.map fun a => Real.log a ^ 2)
        = ((DATA.map Real.log).map fun a => a ^ 2) := by
      rw [List.map_map]; rfl
    rw [hS, hSQ, hmap]
    have hlen : ((DATA.map Real.log).length : ℝ) = (80 : ℝ) := by
      rw [List.length_map, DATA_length]; norm_num
    rw [hlen, DATA_length, N_OBS]
    push_cast
    ring

/-- Witness for C3 at `sigma = -1` (infeasible) and `sigma = 1` (feasible). -/
theorem target_log_prob_spec_witness :
    TARGET_LOG_PROB 0 (-1) = ⊥ ∧ TARGET_LOG_PROB 0 1 ≠ ⊥ :=
  ⟨(target_log_prob_spec 0 (-1)).1 (by norm_num),
    ((target_log_prob_spec 0 1).2 (by norm_num)).1⟩

/-- One Metropolis-Hastings step `mhStep(muCurr, sigCurr, step, rng)`.  The
impure `rng` closure is modelled by explicit state passing: the result pairs
the JS return value `[mu, sig, accepted]` with the RNG state after the
step.  The early-rejection branch (`sigProp <= 0`) consumes only the two
proposal draws and does not evaluate the log-posterior. -/
noncomputable def mhStep (muCurr sigCurr step : ℝ) (s : ℕ) : (ℝ × ℝ × Bool) × ℕ :=
  let s1 := lcg s
  let muProp := muCurr + (lcgU s1 * 2 - 1) * step
  let s2 := lcg s1
  let sigProp := sigCurr + (lcgU s2 * 2 - 1) * step
  if sigProp ≤ 0 then ((muCurr, sigCurr, false), s2)
  else
    let s3 := lcg s2
    if ((Real.log (lcgU s3 + 1e-12) : ℝ) : EReal)
        < TARGET_LOG_PROB muProp sigProp - TARGET_LOG_PROB muCurr sigCurr then
      ((muProp, sigProp, true), s3)
    else ((muCurr, sigCurr, false), s3)

/-- The chain of `k` consecutive `mhStep` results from a given
(state, RNG state) pair: for each step the state after the step together
with its accepted flag. -/
noncomputable def chainFrom (step : ℝ) : ℕ → (ℝ × ℝ) × ℕ → List ((ℝ × ℝ) × Bool)
  | 0, _ => []
  | k + 1, p =>
    ((((mhStep p.1.1 p.1.2 step p.2).1.1, (mhStep p.1.1 p.1.2 step p.2).1.2.1),
        (mhStep p.1.1 p.1.2 step p.2).1.2.2)) ::
      chainFrom step k (((mhStep p.1.1 p.1.2 step p.2).1.1,
        (mhStep p.1.1 p.1.2 step p.2).1.2.1), (mhStep p.1.1 p.1.2 step p.2).2)

/-- The `for (let i = 0; i < total; i++)` loop of `runSampler`, with `rem`
remaining iterations, loop index `i`, current state `st`, RNG state `s`,
and the accumulators `newSamples`, `trajectory`, `accepted` (burn-in is the
fixed constant 100; the trajectory records steps with
`i >= burnIn && i < burnIn + 80`). -/
noncomputable def runLoop (step : ℝ) :
    ℕ → ℕ → ℝ × ℝ → ℕ → List (ℝ × ℝ) → List (ℝ × ℝ) → ℕ →
      List (ℝ × ℝ) × List (ℝ × ℝ) × ℕ
  | 0, _, _, _, samps, traj, acc => (samps, traj, acc)
  | rem + 1, i, st, s, samps, traj, acc =>
    runLoop step rem (i + 1)
      ((mhStep st.1 st.2 step s).1.1, (mhStep st.1 st.2 step s).1.2.1)
      (mhStep st.1 st.2 step s).2
      (if 100 ≤ i then
        samps ++ [((mhStep st.1 st.2 step s).1.1, (mhStep st.1 st.2 step s).1.2.1)]
      else samps)
      (if 100 ≤ i ∧ i < 180 then
        traj ++ [((mhStep st.1 st.2 step s).1.1, (mhStep st.1 st.2 step s).1.2.1)]
      else traj)
      (if (mhStep st.1 st.2 step s).1.2.2 then acc + 1 else acc)

/-- The outputs of one `runSampler` invocation: the post-burn-in sample
positions, the retained trajectory, the accepted-step count, and the
reported acceptance rate `accepted / total`. -/
structure SamplerResult where
  samples : List (ℝ × ℝ)
  trajectory : List (ℝ × ℝ)
  accepted : ℕ
  acceptRate : ℝ

/-- `runSampler` for a `(seed, stepSize, numSamples)` triple: starting state
`(mu, sig) = (1.0, 0.6)`, burn-in 100, `total = numSamples + burnIn` steps,
trajectory initialized to `[{x: mu, y: sig}]`, and
`acceptance = accepted / total`. -/
noncomputable def runSampler (seed : ℕ) (stepSize : ℝ) (numSamples : ℕ) : SamplerResult where
  samples := (runLoop stepSize (numSamples + 100) 0 (1.0, 0.6) seed [] [(1.0, 0.6)] 0).1
  trajectory := (runLoop stepSize (numSamples + 100) 0 (1.0, 0.6) seed [] [(1.0, 0.6)] 0).2.1
  accepted := (runLoop stepSize (numSamples + 100) 0 (1.0, 0.6) seed [] [(1.0, 0.6)] 0).2.2
  acceptRate := ((runLoop stepSize (numSamples + 100) 0 (1.0, 0.6) seed [] [(1.0, 0.6)] 0).2.2 : ℝ)
    / ((numSamples + 100 : ℕ) : ℝ)

theorem chainFrom_length (step : ℝ) : ∀ (k : ℕ) (p : (ℝ × ℝ) × ℕ),
    (chainFrom step k p).length = k := by
  intro k
  induction k with
  | zero => intro p; rfl
  | succ k ih => intro p; simp only [chainFrom, List.length_cons, ih]

/-- The sampler loop, run from arbitrary accumulators at loop index `i`,
appends to `newSamples` exactly the chain states at absolute index `>= 100`,
appends to `trajectory` the chain states at absolute indices in
`[100, 180)`, and adds to `accepted` the number of accepted steps. -/
theorem runLoop_eq (step : ℝ) :
    ∀ (rem i : ℕ) (st : ℝ × ℝ) (s : ℕ) (samps traj : List (ℝ × ℝ)) (acc : ℕ),
    runLoop step rem i st s samps traj acc =
      (samps ++ ((chainFrom step rem (st, s)).map Prod.fst).drop (100 - i),
       traj ++ ((((chainFrom step rem (st, s)).map Prod.fst).drop (100 - i)).take
         (180 - max 100 i)),
       acc + (chainFrom step rem (st, s)).countP fun q => q.2) := by
  intro rem
  induction rem with
  | zero =>
    intro i st s samps traj acc
    simp [runLoop, chainFrom]
  | succ rem ih =>
    intro i st s samps traj acc
    rw [runLoop, ih, chainFrom]
    simp only [List.map_cons, List.countP_cons, Prod.mk.injEq]
    refine ⟨?_, ?_, ?_⟩
    · by_cases h : 100 ≤ i
      · rw [if_pos h, Nat.sub_eq_zero_of_le h, Nat.sub_eq_zero_of_le (le_trans h (by omega)),
          List.drop_zero, List.drop_zero, List.append_assoc, List.singleton_append]
      · rw [if_neg h, show 100 - i = (100 - (i + 1)) + 1 by omega, List.drop_succ_cons]
    · by_cases h : 100 ≤ i
      · by_cases h2 : i < 180
        · rw [if_pos ⟨h, h2⟩, Nat.sub_eq_zero_of_le h, Nat.sub_eq_zero_of_le (le_trans h (by omega)),
            List.drop_zero, List.drop_zero, max_eq_right h, max_eq_right (le_trans h (by omega)),
            show 180 - i = (180 - (i + 1)) + 1 by omega, List.take_succ_cons,
            List.append_assoc, List.singleton_append]
        · rw [if_neg (by omega : ¬ (100 ≤ i ∧ i < 180)), Nat.sub_eq_zero_of_le h,
            Nat.sub_eq_zero_of_le (le_trans h (by omega)), max_eq_right h,
            max_eq_right (le_trans h (by omega)),
            show 180 - i = 0 by omega, show 180 - (i + 1) = 0 by omega,
            List.take_zero, List.take_zero, List.append_nil]
      · rw [if_neg (by omega : ¬ (100 ≤ i ∧ i < 180)),
          show 100 - i = (100 - (i + 1)) + 1 by omega, List.drop_succ_cons,
          max_eq_left (by omega), max_eq_left (by omega)]
    · by_cases h : (mhStep st.1 st.2 step s).1.2.2
      · rw [if_pos h, if_pos h]; omega
      · rw [if_neg h, if_neg h]; omega

theorem runSampler_samples (seed : ℕ) (stepSize : ℝ) (n : ℕ) :
    (runSampler seed stepSize n).samples
      = ((chainFrom stepSize (n + 100) ((1.0, 0.6), seed)).map Prod.fst).drop 100 := by
  show (runLoop stepSize (n + 100) 0 (1.0, 0.6) seed [] [(1.0, 0.6)] 0).1 = _
  rw [runLoop_eq]
  simp

theorem runSampler_trajectory (seed : ℕ) (stepSize : ℝ) (n : ℕ) :
    (runSampler seed stepSize n).trajectory
      = (1.0, 0.6) ::
        ((((chainFrom stepSize (n + 100) ((1.0, 0.6), seed)).map Prod.fst).drop 100).take 80) := by
  show (runLoop stepSize (n + 100) 0 (1.0, 0.6) seed [] [(1.0, 0.6)] 0).2.1 = _
  rw [runLoop_eq]
  norm_num

theorem runSampler_accepted (seed : ℕ) (stepSize : ℝ) (n : ℕ) :
    (runSampler seed stepSize n).accepted
      = (chainFrom stepSize (n + 100) ((1.0, 0.6), seed)).countP (fun q => q.2) := by
  show (runLoop stepSize (n + 100) 0 (1.0, 0.6) seed [] [(1.0, 0.6)] 0).2.2 = _
  rw [runLoop_eq]
  simp

/-- C1: for a fixed triple `(seed, stepSize, sampleCount)` and the fixed
starting state `(mu, sigma) = (1.0, 0.6)`, any two runs of the
Metropolis-Hastings sampler produce identical sample sequences, identical
trajectories, and identical acceptance rates: the sampler is a pure
function of the triple, all pseudo-randomness coming deterministically from
`seededRNG(seed)`. -/
theorem sampler_deterministic (seed : ℕ) (stepSize : ℝ) (n : ℕ) (r1 r2 : SamplerResult)
    (h1 : r1 = runSampler seed stepSize n) (h2 : r2 = runSampler seed stepSize n) :
    r1.samples = r2.samples ∧ r1.trajectory = r2.trajectory ∧
      r1.acceptRate = r2.acceptRate := by
  subst h1; subst h2; exact ⟨rfl, rfl, rfl⟩

/-- Witness for C1 at `(seed, stepSize, sampleCount) = (1, 0.15, 300)`. -/
theorem sampler_deterministic_witness :
    (runSampler 1 0.15 300).samples = (runSampler 1 0.15 300).samples ∧
    (runSampler 1 0.15 300).trajectory = (runSampler 1 0.15 300).trajectory ∧
    (runSampler 1 0.15 300).acceptRate = (runSampler 1 0.15 300).acceptRate :=
  sampler_deterministic 1 0.15 300 (runSampler 1 0.15 300) (runSampler 1 0.15 300) rfl rfl

theorem mhStep_sig_pos (muCurr sigCurr step : ℝ) (s : ℕ) (h : 0 < sigCurr) :
    0 < (mhStep muCurr sigCurr step s).1.2.1 := by
  simp only [mhStep]
  split_ifs with h1 h2
  · exact h
  · exact lt_of_not_le h1
  · exact h

theorem chainFrom_sig_pos (step : ℝ) :
    ∀ (k : ℕ) (st : ℝ × ℝ) (s : ℕ), 0 < st.2 →
      ∀ p ∈ (chainFrom step k (st, s)).map Prod.fst, 0 < p.2 := by
  intro k
  induction k with
  | zero => intro st s h p hp; simp [chainFrom] at hp
  | succ k ih =>
    intro st s h p hp
    simp only [chainFrom, List.map_cons, List.mem_cons] at hp
    rcases hp with rfl | hp
    · exact mhStep_sig_pos st.1 st.2 step s h
    · exact ih _ _ (mhStep_sig_pos st.1 st.2 step s h) p hp

/-- C2: for every seed, step size and sample count, every state recorded in
the sampler's sample set and trajectory has `sigma > 0` (the chain starts at
`sigma = 0.6 > 0`); and whenever the proposed sigma is `<= 0`, `mhStep`
returns the unchanged current state with `accepted = false` — the returned
RNG state `lcg (lcg s)` shows only the two proposal draws were consumed, so
the log-posterior is not evaluated for that proposal. -/
theorem sampler_sigma_positive (seed : ℕ) (stepSize : ℝ) (n : ℕ) :
    (∀ p ∈ (runSampler seed stepSize n).samples, 0 < p.2) ∧
    (∀ p ∈ (runSampler seed stepSize n).trajectory, 0 < p.2) ∧
    (∀ (muCurr sigCurr step : ℝ) (s : ℕ),
      sigCurr + (lcgU (lcg (lcg s)) * 2 - 1) * step ≤ 0 →
      mhStep muCurr sigCurr step s = ((muCurr, sigCurr, false), lcg (lcg s))) := by
  refine ⟨?_, ?_, ?_⟩
  · intro p hp
    rw [runSampler_samples] at hp
    exact chainFrom_sig_pos stepSize (n + 100) (1.0, 0.6) seed (by norm_num) p
      (List.mem_of_mem_drop hp)
  · intro p hp
    rw [runSampler_trajectory] at hp
    rcases List.mem_cons.mp hp with rfl | hp
    · norm_num
    · exact chainFrom_sig_pos stepSize (n + 100) (1.0, 0.6) seed (by norm_num) p
        (List.mem_of_mem_drop (List.mem_of_mem_take hp))
  · intro muCurr sigCurr step s hprop
    simp only [mhStep]
    rw [if_pos hprop]

/-- Witness for C2: the initial trajectory point of a concrete run has
positive sigma, and a concrete `mhStep` call whose proposed sigma is
negative returns the unchanged state, rejected, after two RNG draws. -/
theorem sampler_sigma_positive_witness :
    0 < (((1.0 : ℝ), (0.6 : ℝ)) : ℝ × ℝ).2 ∧
      mhStep 0 1 10 0 = ((0, 1, false), lcg (lcg 0)) :=
  ⟨(sampler_sigma_positive 1 0.15 300).2.1 (1.0, 0.6)
      (by rw [runSampler_trajectory]; exact List.mem_cons_self _ _),
    (sampler_sigma_positive 1 0.15 300).2.2 0 1 10 0 (by norm_num [lcg, lcgU])⟩

/-- C7: the acceptance rate reported by the sampler equals the number of
accepted steps divided by the total number of steps including the fixed
100-step burn-in, `accepted / (sampleCount + 100)`, where the accepted
count is taken over the entire chain (burn-in included) — not the
post-burn-in sample count alone. -/
theorem acceptance_rate_denominator (seed : ℕ) (stepSize : ℝ) (n : ℕ) :
    (runSampler seed stepSize n).acceptRate
      = ((runSampler seed stepSize n).accepted : ℝ) / ((n : ℝ) + 100) ∧
    (runSampler seed stepSize n).accepted
      = (chainFrom stepSize (n + 100) ((1.0, 0.6), seed)).countP (fun q => q.2) := by
  constructor
  · show ((runLoop stepSize (n + 100) 0 (1.0, 0.6) seed [] [(1.0, 0.6)] 0).2.2 : ℝ)
        / ((n + 100 : ℕ) : ℝ) = _
    push_cast
    rfl
  · exact runSampler_accepted seed stepSize n

/-- C9 (amended): the retained trajectory is exactly the initial starting
state `(1.0, 0.6)` followed by the chain states of the first 80
post-burn-in steps (absolute step indices 100 to 179), in order; no other
pre-burn-in state appears in it. -/
theorem trajectory_is_init_and_post_burn_in (seed : ℕ) (stepSize : ℝ) (n : ℕ) :
    (runSampler seed stepSize n).trajectory
      = (1.0, 0.6) ::
        ((((chainFrom stepSize (n + 100) ((1.0, 0.6), seed)).map Prod.fst).drop 100).take 80) :=
  runSampler_trajectory seed stepSize n

/-- C9 counterexample: with `seed = 1`, `stepSize = 0`, `sampleCount = 0`,
the retained trajectory contains the initial pre-burn-in state `(1.0, 0.6)`
even though the set of chain states from the first 80 post-burn-in steps is
empty — so not every retained trajectory point is a post-burn-in chain
state. -/
theorem trajectory_contains_pre_burn_in_state :
    ¬ (∀ p ∈ (runSampler 1 0 0).trajectory,
        p ∈ ((((chainFrom 0 (0 + 100) ((1.0, 0.6), 1)).map Prod.fst).drop 100).take 80)) := by
  intro hcl
  have h1 : ((1.0, 0.6) : ℝ × ℝ) ∈ (runSampler 1 0 0).trajectory := by
    rw [runSampler_trajectory]
    exact List.mem_cons_self _ _
  have h2 := hcl _ h1
  have h3 : (((chainFrom 0 (0 + 100) ((1.0, 0.6), 1)).map Prod.fst).drop 100)
      = ([] : List (ℝ × ℝ)) := by
    apply List.drop_eq_nil_of_le
    rw [List.length_map, chainFrom_length]
  rw [h3] at h2
  simp at h2

/-- C10: a single sampler run retains exactly `n` post-burn-in sample
positions in its sample set, and the retained trajectory has exactly
`1 + min n 80` points (the initial state plus the recorded prefix). -/
theorem sampler_output_counts (seed : ℕ) (stepSize : ℝ) (n : ℕ) :
    (runSampler seed stepSize n).samples.length = n ∧
    (runSampler seed stepSize n).trajectory.length = 1 + min n 80 := by
  constructor
  · rw [runSampler_samples, List.length_drop, List.length_map, chainFrom_length]
    omega
  · rw [runSampler_trajectory, List.length_cons, List.length_take, List.length_drop,
      List.length_map, chainFrom_length]
    omega

/-- Grid abscissa `mu = MU_MIN + (i / (GRID_STEPS - 1)) * (MU_MAX - MU_MIN)`
with `MU_MIN = 0.5`, `MU_MAX = 1.7`, `GRID_STEPS = 50`. -/
noncomputable def gridMu (i : ℕ) : ℝ := 0.5 + ((i : ℝ) / 49) * (1.7 - 0.5)

/-- Grid ordinate `sig = SIG_MIN + (j / (GRID_STEPS - 1)) * (SIG_MAX - SIG_MIN)`
with `SIG_MIN = 0.2`, `SIG_MAX = 1.1`. -/
noncomputable def gridSig (j : ℕ) : ℝ := 0.2 + ((j : ℝ) / 49) * (1.1 - 0.2)

/-- The raw log-value grid `grid[i][j] = TARGET_LOG_PROB(mu_i, sig_j)` filled
by the first pair of nested loops of `buildContourGrid`. -/
noncomputable def rawGrid : List (List EReal) :=
  (List.range 50).map fun i => (List.range 50).map fun j =>
    TARGET_LOG_PROB (gridMu i) (gridSig j)

/-- The running maximum `maxV` over all finite grid cells, starting from
`-Infinity`, taken in the same row-major order as the nested loops
(`isFinite(v)` on an `EReal` value is `v ≠ ⊥ ∧ v ≠ ⊤`). -/
noncomputable def gridMax : EReal :=
  rawGrid.foldl
    (fun m row => row.foldl (fun m v => if v ≠ ⊥ ∧ v ≠ ⊤ then max m v else m) m) ⊥

/-- The second pass of `buildContourGrid`:
`grid[i][j] = isFinite(grid[i][j]) ? Math.exp(grid[i][j] - maxV) : 0`.
In every reachable evaluation both the cell and `maxV` are finite, so the
JS subtraction is the real subtraction of the `toReal` values. -/
noncomputable def cellIntensity (v : EReal) : ℝ :=
  if v ≠ ⊥ ∧ v ≠ ⊤ then Real.exp (v.toReal - gridMax.toReal) else 0

/-- `buildContourGrid()`: the normalized intensity grid. -/
noncomputable def buildContourGrid : List (List ℝ) :=
  rawGrid.map fun row => row.map cellIntensity

theorem TLP_ne_bot_of_pos (mu sig : ℝ) (h : 0 < sig) :
    TARGET_LOG_PROB mu sig ≠ ⊥ := by
  rw [TARGET_LOG_PROB, if_neg (not_le.mpr h)]
  exact EReal.coe_ne_bot _

theorem TLP_ne_top (mu sig : ℝ) : TARGET_LOG_PROB mu sig ≠ ⊤ := by
  rw [TARGET_LOG_PROB]
  split_ifs
  · exact fun h => absurd h bot_ne_top
  · exact EReal.coe_ne_top _

theorem gridSig_pos (j : ℕ) : 0 < gridSig j := by
  have h9 : (1.1 - 0.2 : ℝ) = 0.9 := by norm_num
  rw [gridSig, h9]
  have : 0 ≤ ((j : ℝ) / 49) * 0.9 := by positivity
  linarith

theorem foldl_max_ge_init (l : List EReal) : ∀ m : EReal,
    m ≤ l.foldl (fun m v => if v ≠ ⊥ ∧ v ≠ ⊤ then max m v else m) m := by
  induction l with
  | nil => intro m; exact le_refl m
  | cons x l ih =>
    intro m
    rw [List.foldl_cons]
    refine le_trans ?_ (ih _)
    by_cases hx : x ≠ ⊥ ∧ x ≠ ⊤
    · rw [if_pos hx]; exact le_max_left m x
    · rw [if_neg hx]

theorem foldl_max_ge_mem (l : List EReal) : ∀ (m : EReal), ∀ v ∈ l, v ≠ ⊤ →
    v ≤ l.foldl (fun m v => if v ≠ ⊥ ∧ v ≠ ⊤ then max m v else m) m := by
  induction l with
  | nil => intro m v hv; exact absurd hv (List.not_mem_nil v)
  | cons x l ih =>
    intro m v hv hvt
    rcases List.mem_cons.mp hv with rfl | hv
    · by_cases hb : v = ⊥
      · subst hb; exact bot_le
      · refine le_trans ?_ (foldl_max_ge_init l _)
        simp only [List.foldl_cons, if_pos (And.intro hb hvt)]
        exact le_max_right m v
    · exact le_trans (ih _ v hv hvt) (le_of_eq (by rw [List.foldl_cons]))

theorem foldl_max_mem_or (l : List EReal) : ∀ m : EReal,
    l.foldl (fun m v => if v ≠ ⊥ ∧ v ≠ ⊤ then max m v else m) m = m ∨
      l.foldl (fun m v => if v ≠ ⊥ ∧ v ≠ ⊤ then max m v else m) m ∈ l := by
  induction l with
  | nil => intro m; exact Or.inl rfl
  | cons x l ih =>
    intro m
    rcases ih (if x ≠ ⊥ ∧ x ≠ ⊤ then max m x else m) with h | h
    · rw [List.foldl_cons, h]
      by_cases hx : x ≠ ⊥ ∧ x ≠ ⊤
      · rw [if_pos hx]
        rcases max_choice m x with hm | hm
        · exact Or.inl hm
        · exact Or.inr (by rw [hm]; exact List.mem_cons_self x l)
      · rw [if_neg hx]; exact Or.inl rfl
    · rw [List.foldl_cons]
      exact Or.inr (List.mem_cons_of_mem x h)

theorem gridMax_eq_flat : gridMax =
    rawGrid.flatten.foldl (fun m v => if v ≠ ⊥ ∧ v ≠ ⊤ then max m v else m) ⊥ := by
  rw [gridMax, List.foldl_flatten]

theorem rawGrid_flat_spec : ∀ v ∈ rawGrid.flatten,
    ∃ i j : ℕ, v = TARGET_LOG_PROB (gridMu i) (gridSig j) := by
  intro v hv
  rcases List.mem_flatten.mp hv with ⟨row, hrow, hvrow⟩
  rcases List.mem_map.mp hrow with ⟨i, _, rfl⟩
  rcases List.mem_map.mp hvrow with ⟨j, _, rfl⟩
  exact ⟨i, j, rfl⟩

theorem rawGrid_flat_finite : ∀ v ∈ rawGrid.flatten, v ≠ ⊥ ∧ v ≠ ⊤ := by
  intro v hv
  rcases rawGrid_flat_spec v hv with ⟨i, j, rfl⟩
  exact ⟨TLP_ne_bot_of_pos _ _ (gridSig_pos j), TLP_ne_top _ _⟩

theorem cell00_mem : TARGET_LOG_PROB (gridMu 0) (gridSig 0) ∈ rawGrid.flatten := by
  refine List.mem_flatten_of_mem (l := (List.range 50).map fun j =>
    TARGET_LOG_PROB (gridMu 0) (gridSig j)) ?_ ?_
  · exact List.mem_map_of_mem _ (List.mem_range.mpr (by norm_num))
  · exact List.mem_map_of_mem _ (List.mem_range.mpr (by norm_num))

theorem gridMax_ne_bot : gridMax ≠ ⊥ := by
  have h1 := foldl_max_ge_mem rawGrid.flatten ⊥ _ cell00_mem (TLP_ne_top _ _)
  rw [← gridMax_eq_flat] at h1
  intro h
  rw [h] at h1
  exact TLP_ne_bot_of_pos (gridMu 0) (gridSig 0) (gridSig_pos 0) (le_bot_iff.mp h1)

theorem gridMax_ne_top : gridMax ≠ ⊤ := by
  rcases (gridMax_eq_flat ▸ foldl_max_mem_or rawGrid.flatten ⊥) with h | h
  · rw [h]; exact bot_ne_top
  · exact (rawGrid_flat_finite _ h).2

theorem gridMax_mem : gridMax ∈ rawGrid.flatten := by
  rcases (gridMax_eq_flat ▸ foldl_max_mem_or rawGrid.flatten ⊥) with h | h
  · exact absurd h gridMax_ne_bot
  · exact h

theorem le_gridMax : ∀ v ∈ rawGrid.flatten, v ≤ gridMax := by
  intro v hv
  rw [gridMax_eq_flat]
  exact foldl_max_ge_mem rawGrid.flatten ⊥ v hv (rawGrid_flat_finite v hv).2

theorem cellIntensity_mem_unit : ∀ v ∈ rawGrid.flatten,
    0 ≤ cellIntensity v ∧ cellIntensity v ≤ 1 := by
  intro v hv
  rw [cellIntensity, if_pos (rawGrid_flat_finite v hv)]
  refine ⟨Real.exp_nonneg _, Real.exp_le_one_iff.mpr ?_⟩
  have h := EReal.toReal_le_toReal (le_gridMax v hv) (rawGrid_flat_finite v hv).1 gridMax_ne_top
  linarith

/-- C6: every cell of the intensity grid produced by `buildContourGrid` lies
in `[0, 1]`; the maximum value `1.0` is attained (at the cell carrying the
maximum finite log value); and the cell post-processing maps every
non-finite log-density evaluation to cell value `0`. -/
theorem contour_grid_normalized :
    (∀ row ∈ buildContourGrid, ∀ x ∈ row, 0 ≤ x ∧ x ≤ 1) ∧
    (∃ row ∈ buildContourGrid, ∃ x ∈ row, x = 1) ∧
    (∀ v : EReal, ¬ (v ≠ ⊥ ∧ v ≠ ⊤) → cellIntensity v = 0) := by
  refine ⟨?_, ?_, ?_⟩
  · intro row hrow x hx
    rcases List.mem_map.mp hrow with ⟨rawRow, hrawRow, rfl⟩
    rcases List.mem_map.mp hx with ⟨v, hvrow, rfl⟩
    exact cellIntensity_mem_unit v (List.mem_flatten_of_mem hrawRow hvrow)
  · rcases List.mem_flatten.mp gridMax_mem with ⟨rawRow, hrawRow, hvrow⟩
    refine ⟨rawRow.map cellIntensity, List.mem_map_of_mem _ hrawRow,
      cellIntensity gridMax, List.mem_map_of_mem _ hvrow, ?_⟩
    rw [cellIntensity, if_pos ⟨gridMax_ne_bot, gridMax_ne_top⟩, sub_self, Real.exp_zero]
  · intro v hv
    rw [cellIntensity, if_neg hv]

/-- Witness for C6: bounds for the concrete cell `(i, j) = (0, 0)` and the
zero intensity of a non-finite value. -/
theorem contour_grid_normalized_witness :
    (0 ≤ cellIntensity (TARGET_LOG_PROB (gridMu 0) (gridSig 0)) ∧
      cellIntensity (TARGET_LOG_PROB (gridMu 0) (gridSig 0)) ≤ 1) ∧
    cellIntensity ⊥ = 0 := by
  have hj0 : (0 : ℕ) ∈ List.range 50 := List.mem_range.mpr (by norm_num)
  have hcellraw : TARGET_LOG_PROB (gridMu 0) (gridSig 0) ∈
      (List.range 50).map (fun j => TARGET_LOG_PROB (gridMu 0) (gridSig j)) :=
    List.mem_map_of_mem _ hj0
  have hrowraw : ((List.range 50).map fun j => TARGET_LOG_PROB (gridMu 0) (gridSig j))
      ∈ rawGrid := List.mem_map_of_mem _ hj0
  exact ⟨contour_grid_normalized.1 _ (List.mem_map_of_mem _ hrowraw) _
      (List.mem_map_of_mem _ hcellraw),
    contour_grid_normalized.2.2 ⊥ (by simp)⟩

/-- `PosteriorUpdateVisualization`:
`posteriorVar = 1 / (1 / priorSigma ** 2 + 1 / dataSigma ** 2)`. -/
noncomputable def posteriorVar (priorSigma dataSigma : ℝ) : ℝ :=
  1 / (1 / priorSigma ^ 2 + 1 / dataSigma ^ 2)

/-- `posteriorSigma = Math.sqrt(posteriorVar)`. -/
noncomputable def posteriorSigma (priorSigma dataSigma : ℝ) : ℝ :=
  Real.sqrt (posteriorVar priorSigma dataSigma)

/-- `posteriorMu = posteriorVar * (priorMu / priorSigma ** 2 + dataMu / dataSigma ** 2)`. -/
noncomputable def posteriorMu (priorMu priorSigma dataMu dataSigma : ℝ) : ℝ :=
  posteriorVar priorSigma dataSigma * (priorMu / priorSigma ^ 2 + dataMu / dataSigma ^ 2)

/-- `ChapterInference`: prior precision `prec0 = 1 / priorSigma ** 2`. -/
noncomputable def prec0 (priorSigma : ℝ) : ℝ := 1 / priorSigma ^ 2

/-- `ChapterInference`: data precision `precD = 1 / dataSigma ** 2`. -/
noncomputable def precD (dataSigma : ℝ) : ℝ := 1 / dataSigma ^ 2

/-- `ChapterInference`: `posteriorSigma = Math.sqrt(1 / (prec0 + precD))`. -/
noncomputable def posteriorSigmaCI (priorSigma dataSigma : ℝ) : ℝ :=
  Real.sqrt (1 / (prec0 priorSigma + precD dataSigma))

/-- `ChapterInference`:
`posteriorMu = posteriorSigma ** 2 * (prec0 * priorMu + precD * dataMu)`. -/
noncomputable def posteriorMuCI (priorMu priorSigma dataMu dataSigma : ℝ) : ℝ :=
  posteriorSigmaCI priorSigma dataSigma ^ 2 *
    (prec0 priorSigma * priorMu + precD dataSigma * dataMu)

/-- C4: the analytical Normal-Normal conjugate update computes the posterior
variance as `1 / (1/σ₀² + 1/σ_D²)` and the posterior mean as the
precision-weighted average `(μ₀/σ₀² + x̄/σ_D²) / (1/σ₀² + 1/σ_D²)`; for
prior `(0, 1)` and data `(x̄ = 10, σ_D = 1)` the posterior mean is exactly
`5.0` (in both implementations of the formula) and the posterior sd is
`Real.sqrt 0.5`. -/
theorem normal_normal_update :
    (∀ pm ps dm ds : ℝ,
      posteriorVar ps ds = 1 / (1 / ps ^ 2 + 1 / ds ^ 2) ∧
      posteriorMu pm ps dm ds = (pm / ps ^ 2 + dm / ds ^ 2) / (1 / ps ^ 2 + 1 / ds ^ 2)) ∧
    posteriorMu 0 1 10 1 = 5 ∧ posteriorSigma 1 1 = Real.sqrt 0.5 ∧
    posteriorMuCI 0 1 10 1 = 5 := by
  refine ⟨fun pm ps dm ds => ⟨rfl, ?_⟩, ?_, ?_, ?_⟩
  · rw [posteriorMu, posteriorVar]; ring
  · norm_num [posteriorMu, posteriorVar]
  · rw [posteriorSigma]
    norm_num [posteriorVar]
  · rw [posteriorMuCI, posteriorSigmaCI, prec0, precD,
      Real.sq_sqrt (by norm_num : (0 : ℝ) ≤ 1 / (1 / (1 : ℝ) ^ 2 + 1 / (1 : ℝ) ^ 2))]
    norm_num

/-- `BetaBinomialUpdater`: `successes = observations.filter(Boolean).length`. -/
def successes (observations : List Bool) : ℕ := (observations.filter id).length

/-- `failures = observations.filter(v => !v).length`. -/
def failures (observations : List Bool) : ℕ := (observations.filter (fun v => !v)).length

/-- `postA = priorA + successes`. -/
def postA (priorA : ℚ) (observations : List Bool) : ℚ := priorA + successes observations

/-- `postB = priorB + failures`. -/
def postB (priorB : ℚ) (observations : List Bool) : ℚ := priorB + failures observations

/-- `posteriorMean = postA / (postA + postB)`. -/
def posteriorMean (priorA priorB : ℚ) (observations : List Bool) : ℚ :=
  postA priorA observations / (postA priorA observations + postB priorB observations)

theorem successes_le (obs : List Bool) : successes obs ≤ obs.length :=
  List.length_filter_le _ _

theorem failures_eq (obs : List Bool) : failures obs = obs.length - successes obs := by
  have h := List.length_eq_length_filter_add (l := obs) id
  simp only [id_eq] at h
  rw [failures, successes]
  omega

/-- C5: for every prior `(α, β)` and observation list with `k` successes out
of `n` observations, the posterior parameters are exactly
`(α + k, β + (n − k))`; each new observation bumps exactly one of the two
counts by one; and from prior `(1, 1)` with 3 successes and 1 failure the
posterior is exactly `(4, 2)` with posterior mean `4/6`. -/
theorem beta_binomial_update :
    (∀ (a b : ℚ) (obs : List Bool),
      postA a obs = a + successes obs ∧
      postB b obs = b + ((obs.length - successes obs : ℕ) : ℚ) ∧
      postA a (obs ++ [true]) = postA a obs + 1 ∧
      postB b (obs ++ [true]) = postB b obs ∧
      postA a (obs ++ [false]) = postA a obs ∧
      postB b (obs ++ [false]) = postB b obs + 1) ∧
    postA 1 [true, true, true, false] = 4 ∧
    postB 1 [true, true, true, false] = 2 ∧
    posteriorMean 1 1 [true, true, true, false] = 4 / 6 := by
  refine ⟨fun a b obs => ⟨rfl, ?_, ?_, ?_, ?_, ?_⟩, ?_, ?_, ?_⟩
  · rw [postB, failures_eq]
  · simp [postA, successes, List.filter_append]; ring
  · simp [postB, failures, List.filter_append]
  · simp [postA, successes, List.filter_append]
  · simp [postB, failures, List.filter_append]; ring
  · norm_num [postA, successes]
  · norm_num [postB, failures]
  · norm_num [posteriorMean, postA, postB, successes, failures]

/-- The Lanczos coefficient array `c` of the `logGamma` helper inside
`betaPDF`. -/
noncomputable def lanczosC : List ℝ :=
  [76.18009173, -86.50532033, 24.0140982, -1.23173957, 1.20865097e-3, -5.39523938e-6]

/-- `logGamma(z)` of `BetaBinomialUpdater`: the Lanczos-style approximation;
the loop `y += 1; ser += c[j] / y` over the coefficient array is the fold
carrying the pair `(y, ser)` from `(z, 1.0000000002)`. -/
noncomputable def logGamma (z : ℝ) : ℝ :=
  -(z + 5.5 - (z + 0.5) * Real.log (z + 5.5)) +
    Real.log (2.5066282746 *
      (lanczosC.foldl (fun acc cj => (acc.1 + 1, acc.2 + cj / (acc.1 + 1)))
        ((z, 1.0000000002) : ℝ × ℝ)).2 / z)

/-- `logBeta(a, b) = logGamma(a) + logGamma(b) - logGamma(a + b)`. -/
noncomputable def logBeta (a b : ℝ) : ℝ := logGamma a + logGamma b - logGamma (a + b)

/-- `betaPDF(x, a, b)`: `0` for `x <= 0 || x >= 1`, otherwise the
exponentiated log-density
`exp((a-1)·log x + (b-1)·log(1-x) - logBeta(a, b))`. -/
noncomputable def betaPDF (x a b : ℝ) : ℝ :=
  if x ≤ 0 ∨ 1 ≤ x then 0
  else Real.exp ((a - 1) * Real.log x + (b - 1) * Real.log (1 - x) - logBeta a b)

theorem lanczos_fold_one :
    (lanczosC.foldl (fun acc cj => (acc.1 + 1, acc.2 + cj / (acc.1 + 1)))
      (((1 : ℝ), 1.0000000002) : ℝ × ℝ)).2 = 16812932215393843 / 1050000000000000 := by
  simp only [lanczosC, List.foldl]
  norm_num

theorem lanczos_fold_two :
    (lanczosC.foldl (fun acc cj => (acc.1 + 1, acc.2 + cj / (acc.1 + 1)))
      (((2 : ℝ), 1.0000000002) : ℝ × ℝ)).2 = 78663778446842651 / 8400000000000000 := by
  simp only [lanczosC, List.foldl]
  norm_num

theorem logBeta_one_one : logBeta 1 1 =
    -5.5 + 3 * Real.log 6.5 - 2.5 * Real.log 7.5 +
      (2 * Real.log ((70239618783399040397588813 : ℝ) / 1750000000000000000000000)
        - Real.log ((328634752069543103489699941 : ℝ) / 28000000000000000000000000)) := by
  rw [logBeta, show ((1 : ℝ) + 1) = 2 by norm_num]
  simp only [logGamma]
  rw [lanczos_fold_one, lanczos_fold_two,
    show ((1 : ℝ) + 5.5) = 6.5 by norm_num,
    show ((2 : ℝ) + 5.5) = 7.5 by norm_num,
    show (2.5066282746 * (16812932215393843 / 1050000000000000) / 1 : ℝ)
      = 70239618783399040397588813 / 1750000000000000000000000 by norm_num,
    show (2.5066282746 * (78663778446842651 / 8400000000000000) / 2 : ℝ)
      = 328634752069543103489699941 / 28000000000000000000000000 by norm_num]
  ring

/-- The Lanczos-approximated `logBeta(1, 1)` is a small negative number, not
zero, so the approximated Beta(1,1) density is not exactly the constant 1. -/
theorem logBeta_one_one_ne_zero : logBeta 1 1 ≠ 0 := by
  intro h0
  have hkey := logBeta_one_one
  rw [h0] at hkey
  have heq : (3 : ℝ) * Real.log 6.5
        + 2 * Real.log ((70239618783399040397588813 : ℝ) / 1750000000000000000000000)
      = 5.5 + 2 * Real.log 7.5 + 0.5 * Real.log 7.5
        + Real.log ((328634752069543103489699941 : ℝ) / 28000000000000000000000000) := by
    linarith [hkey]
  have hexp := congrArg Real.exp heq
  simp only [Real.exp_add] at hexp
  have e1 : Real.exp (3 * Real.log 6.5) = (6.5 : ℝ) ^ (3 : ℕ) := by
    rw [show (3 : ℝ) = ((3 : ℕ) : ℝ) by norm_num, Real.exp_nat_mul,
      Real.exp_log (by norm_num : (0 : ℝ) < 6.5)]
  have e2 : Real.exp (2 * Real.log ((70239618783399040397588813 : ℝ) / 1750000000000000000000000))
      = ((70239618783399040397588813 : ℝ) / 1750000000000000000000000) ^ (2 : ℕ) := by
    rw [show (2 : ℝ) = ((2 : ℕ) : ℝ) by norm_num, Real.exp_nat_mul,
      Real.exp_log (by norm_num : (0 : ℝ) < 70239618783399040397588813 / 1750000000000000000000000)]
  have e3 : Real.exp (2 * Real.log 7.5) = (7.5 : ℝ) ^ (2 : ℕ) := by
    rw [show (2 : ℝ) = ((2 : ℕ) : ℝ) by norm_num, Real.exp_nat_mul,
      Real.exp_log (by norm_num : (0 : ℝ) < 7.5)]
  have hsq : Real.exp (0.5 * Real.log 7.5) ^ (2 : ℕ) = 7.5 := by
    rw [← Real.exp_nat_mul, show (((2 : ℕ) : ℝ)) * (0.5 * Real.log 7.5) = Real.log 7.5 by
      push_cast; ring, Real.exp_log (by norm_num : (0 : ℝ) < 7.5)]
  have e4 : Real.sqrt 7.5 = Real.exp (0.5 * Real.log 7.5) := by
    conv_lhs => rw [← hsq]
    exact Real.sqrt_sq (Real.exp_nonneg _)
  have e5 : Real.exp (Real.log ((328634752069543103489699941 : ℝ) / 28000000000000000000000000))
      = (328634752069543103489699941 : ℝ) / 28000000000000000000000000 :=
    Real.exp_log (by norm_num)
  rw [e1, e2, e3, ← e4, e5] at hexp
  have hclean : (6.5 : ℝ) ^ (3 : ℕ)
        * ((70239618783399040397588813 : ℝ) / 1750000000000000000000000) ^ (2 : ℕ)
      = Real.exp 5.5 * (7.5 : ℝ) ^ (2 : ℕ) * Real.sqrt 7.5
        * ((328634752069543103489699941 : ℝ) / 28000000000000000000000000) := by
    linear_combination hexp
  have hsum : (Finset.range 30).sum (fun i => (5.5 : ℝ) ^ i / (Nat.factorial i : ℝ))
      = (9599375372972593561066727399046377581933 : ℝ)
        / 39230453101371670073917468311552000000 := by
    simp only [Finset.sum_range_succ, Finset.sum_range_zero]
    norm_num [Nat.factorial]
  have hS : ((9599375372972593561066727399046377581933 : ℝ)
        / 39230453101371670073917468311552000000) ≤ Real.exp 5.5 := by
    have h := Real.sum_le_exp_of_nonneg (x := (5.5 : ℝ)) (by norm_num) 30
    rw [hsum] at h
    exact h
  have hq : (2.7386127875 : ℝ) ≤ Real.sqrt 7.5 := by
    have h1 : (2.7386127875 : ℝ) = Real.sqrt ((2.7386127875 : ℝ) ^ 2) :=
      (Real.sqrt_sq (by norm_num)).symm
    rw [h1]
    exact Real.sqrt_le_sqrt (by norm_num)
  have h1 : ((9599375372972593561066727399046377581933 : ℝ)
        / 39230453101371670073917468311552000000) * (7.5 : ℝ) ^ (2 : ℕ)
      ≤ Real.exp 5.5 * (7.5 : ℝ) ^ (2 : ℕ) :=
    mul_le_mul_of_nonneg_right hS (by norm_num)
  have h2 : ((9599375372972593561066727399046377581933 : ℝ)
        / 39230453101371670073917468311552000000) * (7.5 : ℝ) ^ (2 : ℕ) * (2.7386127875 : ℝ)
      ≤ Real.exp 5.5 * (7.5 : ℝ) ^ (2 : ℕ) * Real.sqrt 7.5 :=
    mul_le_mul h1 hq (by norm_num) (by positivity)
  have h3 : ((9599375372972593561066727399046377581933 : ℝ)
        / 39230453101371670073917468311552000000) * (7.5 : ℝ) ^ (2 : ℕ) * (2.7386127875 : ℝ)
        * ((328634752069543103489699941 : ℝ) / 28000000000000000000000000)
      ≤ Real.exp 5.5 * (7.5 : ℝ) ^ (2 : ℕ) * Real.sqrt 7.5
        * ((328634752069543103489699941 : ℝ) / 28000000000000000000000000) :=
    mul_le_mul_of_nonneg_right h2 (by norm_num)
  have hnum : (6.5 : ℝ) ^ (3 : ℕ)
        * ((70239618783399040397588813 : ℝ) / 1750000000000000000000000) ^ (2 : ℕ)
      < ((9599375372972593561066727399046377581933 : ℝ)
        / 39230453101371670073917468311552000000) * (7.5 : ℝ) ^ (2 : ℕ) * (2.7386127875 : ℝ)
        * ((328634752069543103489699941 : ℝ) / 28000000000000000000000000) := by
    norm_num
  linarith [hclean.le, hclean.ge, h3, hnum]

/-- For `x` inside the open unit interval, `betaPDF(x, 1, 1)` is the
constant `exp(-logBeta(1, 1))`, independent of `x`. -/
theorem betaPDF_uniform_const (x : ℝ) (h0 : 0 < x) (h1 : x < 1) :
    betaPDF x 1 1 = Real.exp (-logBeta 1 1) := by
  rw [betaPDF, if_neg (by push_neg; exact ⟨h0, h1⟩)]
  congr 1
  ring

/-- C8 (amended): `betaPDF(x, a, b)` returns `0` for every `x ≤ 0` and every
`x ≥ 1`; for `alpha = beta = 1` and `x` in the open interval `(0, 1)` it
returns the constant `exp(-logBeta(1, 1))`, independent of `x` —
approximately `1.0000000004` because the Lanczos log-gamma approximation
error makes `logBeta(1,1)` a small nonzero number, so the value is not
exactly `1`. -/
theorem betaPDF_support_and_uniform :
    (∀ x a b : ℝ, x ≤ 0 → betaPDF x a b = 0) ∧
    (∀ x a b : ℝ, 1 ≤ x → betaPDF x a b = 0) ∧
    (∀ x : ℝ, 0 < x → x < 1 → betaPDF x 1 1 = Real.exp (-logBeta 1 1)) := by
  refine ⟨?_, ?_, ?_⟩
  · intro x a b h
    rw [betaPDF, if_pos (Or.inl h)]
  · intro x a b h
    rw [betaPDF, if_pos (Or.inr h)]
  · exact betaPDF_uniform_const

/-- Witness for C8 (amended) at `x = -1`, `x = 2` and `x = 1/2`. -/
theorem betaPDF_support_and_uniform_witness :
    betaPDF (-1) 2 3 = 0 ∧ betaPDF 2 2 3 = 0 ∧
      betaPDF (1 / 2) 1 1 = Real.exp (-logBeta 1 1) :=
  ⟨betaPDF_support_and_uniform.1 (-1) 2 3 (by norm_num),
    betaPDF_support_and_uniform.2.1 2 2 3 (by norm_num),
    betaPDF_support_and_uniform.2.2 (1 / 2) (by norm_num) (by norm_num)⟩

/-- C8 counterexample: at the concrete input `x = 1/2`, `alpha = beta = 1`
the code does not return exactly `1`: it returns `exp(-logBeta(1,1))` and
the Lanczos-approximated `logBeta(1,1)` is nonzero (about `-3.9e-10`). -/
theorem betaPDF_uniform_not_one : betaPDF (1 / 2) 1 1 ≠ 1 := by
  rw [betaPDF_uniform_const (1 / 2) (by norm_num) (by norm_num)]
  intro h
  have hz : -logBeta 1 1 = 0 := by simpa using h
  exact logBeta_one_one_ne_zero (neg_eq_zero.mp hz)

end BayesPlay
